import Mathlib

/-!
Shallow embedding of parts of the MRtrix3 fixel-correspondence code:
the ragged correspondence mapping (src/fixel/correspondence/mapping.h),
the angular-penalty lookup table (src/fixel/correspondence/dp2cost.h),
the projector that aggregates source fixel data per target fixel
(src/fixel/correspondence/projector.cpp), the mrthreshold command's
option validation (cmd/mrthreshold.cpp), and Math::binomial
(core/math/binomial.h).  Machine integers are modelled as Nat (with an
explicit wrap modulo 2^64 where uint64_t overflow matters) and
floating-point data as real numbers.
-/

/-! ## Mapping (mapping.h)

A `Mapping` stores, for each target fixel index, the ordered list of
source fixel indices assigned to it: field `M` of type
vector<vector<uint32_t>> is modelled as a list of lists of naturals. -/

abbrev Mapping := List (List ℕ)

/-- Constructor `Mapping(source_fixels, target_fixels)`: the outer
vector `M` is created with `target_fixels` empty inner vectors. -/
def Mapping.init (source_fixels target_fixels : ℕ) : Mapping :=
  List.replicate target_fixels []

/-- Member function size(): the number of target entries. -/
def Mapping.size (m : Mapping) : ℕ := m.length

/-- Write access through the index operator (`Value::operator=`): the
`Value` constructor has `assert (index < M.size())`; a failed assertion
is modelled as `none`, otherwise `M[index] = data` replaces the inner
vector at that index. -/
def Mapping.assign (m : Mapping) (index : ℕ) (data : List ℕ) : Option Mapping :=
  if index < m.length then some (m.set index data) else none

/-- Modelled from the spec: the bodies of `Mapping::save` and
`Mapping::load` (mapping.cpp) are not among the provided sources, only
their declarations in mapping.h.  Per spec section 6, the persisted form
is a fixel-dataset-shaped structure: an index part recording, per target
fixel, how many entries of the flat list belong to it, and the flat list
of 32-bit source indices itself.  `Mapping.save` therefore produces the
per-target lengths together with the concatenation of all inner lists. -/
def Mapping.save (m : Mapping) : List ℕ × List ℕ :=
  (m.map List.length, m.flatten)

/-- Cutting a flat list back into chunks of the recorded lengths. -/
def Mapping.chunks : List ℕ → List ℕ → Mapping
  | [], _ => []
  | n :: ns, flat => flat.take n :: Mapping.chunks ns (flat.drop n)

/-- Modelled from the spec: `Mapping::load` with `import_inverse` left
false reconstructs each target's variable-length index list from the
persisted per-target counts and the flat index list. -/
def Mapping.load (saved : List ℕ × List ℕ) : Mapping :=
  Mapping.chunks saved.1 saved.2

/-! ## Math::binomial (core/math/binomial.h)

The body is translated statement by statement:

  if (k > n) return 0;
  if (k * 2 > n) k = n-k;
  if (k == 0) return 1;
  uint64_t result = n;
  for (K i = 2; i <= k; ++i)
    result *= (n-i+1) / i;
  return result;

Note the loop multiplies by the truncated integer quotient
`(n-i+1) / i`.  uint64_t arithmetic wraps modulo 2^64. -/

def Math.binomial (n k : ℕ) : ℕ :=
  if n < k then 0
  else
    let k2 := if n < k * 2 then n - k else k
    if k2 = 0 then 1
    else (List.range' 2 (k2 - 1)).foldl
      (fun result i => result * ((n - i + 1) / i) % 2 ^ 64) (n % 2 ^ 64)

/-! ## DP2Cost (dp2cost.h)

The lookup table converts a direction dot-product `dp` into an angular
penalty.  For real `x` with `0 < x ≤ 1`, `tan(acos x) = sqrt(1-x^2)/x`;
`tanacos` is that closed form.  The constructor fills bin `k`
(for `k` in `[0, resolution]`) with `std::tan(std::acos(k/resolution))`
and appends one padding bin holding 0.  At bin 0 the program's
floating-point evaluation of `tan(acos 0)` yields a large finite number
(the exact real value is unbounded); that stored bin-0 value is
represented by the parameter `t0`. -/

noncomputable def tanacos (x : ℝ) : ℝ := Real.sqrt (1 - x ^ 2) / x

/-- The value stored at one bin of the lookup table: `t0` at bin 0,
`tan(acos(bin/resolution))` for bins `1..resolution`, and 0 in the
padding bin. -/
noncomputable def DP2Cost.entry (resolution : ℕ) (t0 : ℝ) (bin : ℕ) : ℝ :=
  if bin = 0 then t0
  else if bin ≤ resolution then tanacos ((bin : ℝ) / (resolution : ℝ))
  else 0

/-- The member `data`: a table of `resolution + 2` bins. -/
noncomputable def DP2Cost.data (resolution : ℕ) (t0 : ℝ) : List ℝ :=
  (List.range (resolution + 2)).map (DP2Cost.entry resolution t0)

/-- The call operator of DP2Cost: `position = dp * multiplier` with
`multiplier = resolution`, `lower = floor(position)`,
`mu = position - lower`, and the result is the linear interpolation
`(1-mu) * data[lower] + mu * data[lower+1]`. -/
noncomputable def DP2Cost.lookup (resolution : ℕ) (t0 : ℝ) (dp : ℝ) : ℝ :=
  let position := dp * (resolution : ℝ)
  let lower := ⌊position⌋₊
  let mu := position - (lower : ℝ)
  (1 - mu) * (DP2Cost.data resolution t0).getD lower 0
    + mu * (DP2Cost.data resolution t0).getD (lower + 1) 0

/-! ## Projector (projector.h / projector.cpp)

The projector consumes a finished correspondence mapping together with
a source fixel data file and writes one scalar per target fixel.  The
per-fixel float images are modelled as functions from the fixel index:
`input_data` (the quantitative value of each source fixel),
`explicit_weights` (`none` when no weights image is supplied, matching
`explicit_weights.valid()` being false), and the direction images as
functions into 3-vectors. -/

inductive ProjectionMetric
  | SUM
  | MEAN
  | COUNT
  | ANGLE
deriving DecidableEq

structure FillSettings where
  value : ℝ
  nan_many2one : Bool
  nan_one2many : Bool

/-- One cell of the output fixel data file: the not-a-number sentinel
or an ordinary value. -/
inductive FixelValue
  | nan
  | val (x : ℝ)

def dot3 (a b : ℝ × ℝ × ℝ) : ℝ := a.1 * b.1 + a.2.1 * b.2.1 + a.2.2 * b.2.2

def add3 (a b : ℝ × ℝ × ℝ) : ℝ × ℝ × ℝ := (a.1 + b.1, a.2.1 + b.2.1, a.2.2 + b.2.2)

def smul3 (c : ℝ) (a : ℝ × ℝ × ℝ) : ℝ × ℝ × ℝ := (c * a.1, c * a.2.1, c * a.2.2)

/-- Eigen's normalize: divide by the norm. -/
noncomputable def normalize3 (a : ℝ × ℝ × ℝ) : ℝ × ℝ × ℝ :=
  smul3 (1 / Real.sqrt (dot3 a a)) a

structure Projector where
  correspondence : Mapping
  metric : ProjectionMetric
  fill : FillSettings
  input_data : ℕ → ℝ
  explicit_weights : Option (ℕ → ℝ)
  input_directions : ℕ → ℝ × ℝ × ℝ
  target_directions : ℕ → ℝ × ℝ × ℝ

/-- The constructor's `objectives_per_source_fixel` tally: for every
target entry of the correspondence, every listed source index has its
counter incremented, so the tally for `i` is the number of occurrences
of `i` across all target entries. -/
def objectives_per_source_fixel (corr : Mapping) (i : ℕ) : ℕ :=
  (corr.map (fun l => l.count i)).sum

/-- The `implicit_weights` image: `1/objectives` when the tally is
nonzero, otherwise 0. -/
noncomputable def implicit_weight (corr : Mapping) (i : ℕ) : ℝ :=
  if objectives_per_source_fixel corr i ≠ 0 then
    1 / (objectives_per_source_fixel corr i : ℝ)
  else 0

/-- The weight pushed into the `weights` vector for one input fixel:
the implicit weight times the explicit weight when an explicit-weights
image was supplied, otherwise the implicit weight alone. -/
noncomputable def Projector.weight (P : Projector) (i : ℕ) : ℝ :=
  match P.explicit_weights with
  | some w => implicit_weight P.correspondence i * w i
  | none => implicit_weight P.correspondence i

/-- The number of distinct target fixels whose assignment list holds
source fixel `j`: the fan-out of `j`. -/
def fanout (corr : Mapping) (j : ℕ) : ℕ :=
  (corr.filter (fun l => decide (j ∈ l))).length

open Classical in
/-- The call operator of Projector: the value written to output position
`out_index`.  The early returns appear in program order: an empty
assignment list yields the fill value; more than one input fixel with
`nan_many2one` set yields the sentinel; any input fixel whose implicit
weight is below 1 with `nan_one2many` set yields the sentinel (the code
tests this inside the gather loop, before any aggregation); otherwise
the switch on the metric computes the aggregate. -/
noncomputable def Projector.output (P : Projector) (out_index : ℕ) : FixelValue :=
  let in_indices := P.correspondence.getD out_index []
  if in_indices.length = 0 then .val P.fill.value
  else if 1 < in_indices.length ∧ P.fill.nan_many2one = true then .nan
  else if P.fill.nan_one2many = true
      ∧ ∃ i ∈ in_indices, implicit_weight P.correspondence i < 1 then .nan
  else
    match P.metric with
    | .SUM => .val (in_indices.map (fun i => P.input_data i * P.weight i)).sum
    | .MEAN => .val ((in_indices.map (fun i => P.input_data i * P.weight i)).sum
        / (in_indices.map P.weight).sum)
    | .COUNT => .val (in_indices.length : ℝ)
    | .ANGLE =>
        let out_dir := P.target_directions out_index
        let mean_dir := (in_indices.map (fun i =>
          smul3 (P.weight i *
              (if dot3 out_dir (P.input_directions i) < 0 then -1 else 1))
            (P.input_directions i))).foldl add3 (0, 0, 0)
        .val (Real.arccos (dot3 out_dir (normalize3 mean_dir)))

/-- A projector over a single target fixel assigned the two source
fixels 0 and 1 carrying data values 2.0 and 4.0, each source fixel
feeding only that target, with no explicit-weights image and both
ambiguity policies inactive. -/
noncomputable def two_fixel_projector (metric : ProjectionMetric) : Projector :=
  { correspondence := [[0, 1]],
    metric := metric,
    fill := { value := 0, nan_many2one := false, nan_one2many := false },
    input_data := fun i => if i = 0 then 2 else 4,
    explicit_weights := none,
    input_directions := fun _ => (1, 0, 0),
    target_directions := fun _ => (1, 0, 0) }

/-! ## mrthreshold (cmd/mrthreshold.cpp)

Only the up-front option validation of `run()` and its position relative to
the other externally visible steps is modelled. -/

/-- Externally observable steps of `run()`, in program order:
`openInput` is `Header::open (argument[0])`; `computeThreshold` and
`writeOutput` stand for the `execute<T>` stage. -/
inductive ThresholdStep
  | openInput
  | computeThreshold
  | writeOutput
deriving DecidableEq

/-- The command-line state `run()` inspects: whether `-abs` and
`-percentile` carry finite values (their defaults are NaN), whether
`-bottom` and `-top` were given (their defaults are -1 and the
arguments are constrained positive), whether the input datatype is
complex, and whether no output path was given (write to stdout). -/
structure ThresholdOptions where
  abs_given : Bool
  percentile_given : Bool
  bottom_given : Bool
  top_given : Bool
  input_complex : Bool
  to_cout : Bool

/-- The `num_explicit_mechanisms` sum computed at the top of `run()`. -/
def num_explicit_mechanisms (o : ThresholdOptions) : ℕ :=
  (if o.abs_given then 1 else 0) + (if o.percentile_given then 1 else 0)
    + (if o.bottom_given then 1 else 0) + (if o.top_given then 1 else 0)

/-- The function run(): the steps executed together with the thrown
exception message, if any.  The mechanism-count check precedes `Header::open`,
which precedes the complex-datatype check, which precedes thresholding
and the writing of any output. -/
def mrthreshold_run (o : ThresholdOptions) : List ThresholdStep × Option String :=
  if 1 < num_explicit_mechanisms o then
    ([], some "Cannot specify more than one mechanism for threshold selection")
  else if o.input_complex then
    ([.openInput], some "Cannot perform thresholding directly on complex image data")
  else
    ([.openInput, .computeThreshold]
      ++ (if o.to_cout then [] else [.writeOutput]), none)

/-! ## Theorems -/

theorem Mapping.chunks_save (m : Mapping) :
    Mapping.chunks (m.map List.length) m.flatten = m := by
  induction m with
  | nil => rfl
  | cons l rest ih =>
      simp only [List.map_cons, List.flatten_cons, Mapping.chunks,
        List.take_left, List.drop_left, ih]

/-- C1: saving a correspondence mapping and loading it back (with
`import_inverse` left false) reproduces, for every target index, the
identical ordered source-index sequence: the loaded mapping equals the
original elementwise. -/
theorem Mapping.load_save (m : Mapping) :
    Mapping.load (Mapping.save m) = m := by
  simpa [Mapping.load, Mapping.save] using Mapping.chunks_save m

/-- C7: a mapping constructed with `(source_fixels, target_fixels)` has
`size()` equal to `target_fixels` and every target entry empty; write
access through `operator[]` requires the index to be in range (the
assertion), replaces only the inner sequence at that index, and never
changes the outer length. -/
theorem Mapping.init_size_assign (s t : ℕ) (m : Mapping) (i j : ℕ)
    (v : List ℕ) (hi : i < m.length) :
    (Mapping.size (Mapping.init s t) = t
      ∧ ∀ k (hk : k < t), (Mapping.init s t).get ⟨k, by simpa [Mapping.init] using hk⟩ = [])
    ∧ Mapping.assign m i v = some (m.set i v)
    ∧ (m.set i v).length = m.length
    ∧ (m.set i v).getD i [] = v
    ∧ (j ≠ i → (m.set i v).getD j [] = m.getD j [])
    ∧ (∀ w, ¬ (m.length ≤ i) → Mapping.assign m i w ≠ none) := by
  refine ⟨⟨by simp [Mapping.size, Mapping.init], ?_⟩, ?_, ?_, ?_, ?_, ?_⟩
  · intro k hk
    simp [Mapping.init]
  · simp [Mapping.assign, hi]
  · exact List.length_set m i v
  · simp [List.getD_eq_getElem?_getD, List.getElem?_set_self, hi]
  · intro hj
    simp [List.getD_eq_getElem?_getD, List.getElem?_set_ne (fun h => hj h.symm)]
  · intro w hw
    simp [Mapping.assign, lt_of_not_ge hw]

/-- Witness for C7 at concrete values. -/
theorem Mapping.init_size_assign_witness :
    Mapping.size (Mapping.init 5 3) = 3
      ∧ Mapping.assign [[1], [2, 3]] 0 [7] = some [[7], [2, 3]]
      ∧ ([[1], [2, 3]] : Mapping).set 0 [7] = [[7], [2, 3]] := by
  have h := Mapping.init_size_assign 5 3 [[1], [2, 3]] 0 1 [7] (by decide)
  exact ⟨h.1.1, by simpa using h.2.1, by decide⟩

/-- C10 evaluation: `Math::binomial` at `n = 4, k = 2` returns 4,
whereas the binomial coefficient 4-choose-2 is 6; the loop body
`result *= (n-i+1) / i` truncates the quotient before multiplying. -/
theorem Math.binomial_four_two :
    Math.binomial 4 2 = 4 ∧ Nat.choose 4 2 = 6 := by
  constructor <;> decide

/-! ### DP2Cost lemmas -/

theorem tanacos_one : tanacos 1 = 0 := by
  simp [tanacos]

theorem tanacos_nonneg {x : ℝ} (hx : 0 ≤ x) : 0 ≤ tanacos x :=
  div_nonneg (Real.sqrt_nonneg _) hx

theorem tanacos_antitone {x y : ℝ} (hx : 0 < x) (hxy : x ≤ y) :
    tanacos y ≤ tanacos x := by
  unfold tanacos
  refine div_le_div (Real.sqrt_nonneg _) ?_ hx hxy
  refine Real.sqrt_le_sqrt ?_
  nlinarith

theorem DP2Cost.entry_zero (R : ℕ) (t0 : ℝ) : DP2Cost.entry R t0 0 = t0 := by
  simp [DP2Cost.entry]

theorem DP2Cost.entry_of_le (R : ℕ) (t0 : ℝ) {k : ℕ} (h1 : 1 ≤ k) (h2 : k ≤ R) :
    DP2Cost.entry R t0 k = tanacos ((k : ℝ) / (R : ℝ)) := by
  unfold DP2Cost.entry
  rw [if_neg (by omega), if_pos h2]

theorem DP2Cost.entry_of_gt (R : ℕ) (t0 : ℝ) {k : ℕ} (h : R < k) :
    DP2Cost.entry R t0 k = 0 := by
  unfold DP2Cost.entry
  rw [if_neg (by omega), if_neg (by omega)]

theorem DP2Cost.entry_succ_le (R : ℕ) (t0 : ℝ) (hR : 1 ≤ R)
    (ht0 : tanacos (1 / (R : ℝ)) ≤ t0) (k : ℕ) :
    DP2Cost.entry R t0 (k + 1) ≤ DP2Cost.entry R t0 k := by
  rcases Nat.eq_zero_or_pos k with rfl | hk
  · rw [DP2Cost.entry_zero, DP2Cost.entry_of_le R t0 le_rfl hR]
    simpa using ht0
  · by_cases h1 : k + 1 ≤ R
    · rw [DP2Cost.entry_of_le R t0 (by omega) h1,
        DP2Cost.entry_of_le R t0 (by omega) (by omega)]
      have hRpos : (0 : ℝ) < (R : ℝ) := by exact_mod_cast lt_of_lt_of_le one_pos hR
      refine tanacos_antitone (div_pos (by exact_mod_cast hk) hRpos) ?_
      exact div_le_div_of_nonneg_right (by exact_mod_cast Nat.le_succ k) hRpos.le
    · rw [DP2Cost.entry_of_gt R t0 (by omega)]
      by_cases h2 : k ≤ R
      · rw [DP2Cost.entry_of_le R t0 (by omega) h2]
        exact tanacos_nonneg (by positivity)
      · rw [DP2Cost.entry_of_gt R t0 (by omega)]

theorem DP2Cost.data_getD (R : ℕ) (t0 : ℝ) (k : ℕ) :
    (DP2Cost.data R t0).getD k 0 = DP2Cost.entry R t0 k := by
  rcases lt_or_ge k (R + 2) with h | h
  · simp [DP2Cost.data, List.getD_eq_getElem?_getD, List.getElem?_map,
      List.getElem?_range, h]
  · rw [List.getD_eq_getElem?_getD, List.getElem?_eq_none (by
      simpa [DP2Cost.data] using h), Option.getD_none,
      DP2Cost.entry_of_gt R t0 (by omega)]

/-- Linear interpolation between consecutive entries of a table whose
entries are non-increasing is itself non-increasing in the query
position. -/
theorem interp_antitone (T : ℕ → ℝ) (hT : ∀ k, T (k + 1) ≤ T k)
    {p q : ℝ} (hp : 0 ≤ p) (hpq : p ≤ q) :
    (1 - (q - (⌊q⌋₊ : ℝ))) * T ⌊q⌋₊ + (q - (⌊q⌋₊ : ℝ)) * T (⌊q⌋₊ + 1)
      ≤ (1 - (p - (⌊p⌋₊ : ℝ))) * T ⌊p⌋₊ + (p - (⌊p⌋₊ : ℝ)) * T (⌊p⌋₊ + 1) := by
  have hq : 0 ≤ q := le_trans hp hpq
  have hanti : Antitone T := antitone_nat_of_succ_le hT
  have hfp : (⌊p⌋₊ : ℝ) ≤ p := Nat.floor_le hp
  have hfq : (⌊q⌋₊ : ℝ) ≤ q := Nat.floor_le hq
  have hp1 : p < ⌊p⌋₊ + 1 := Nat.lt_floor_add_one p
  have hq1 : q < ⌊q⌋₊ + 1 := Nat.lt_floor_add_one q
  rcases eq_or_lt_of_le (Nat.floor_le_floor hpq) with heq | hlt
  · rw [← heq]
    nlinarith [mul_nonneg (sub_nonneg.2 hpq) (sub_nonneg.2 (hT ⌊p⌋₊))]
  · have h1 : T (⌊p⌋₊ + 1)
        ≤ (1 - (p - (⌊p⌋₊ : ℝ))) * T ⌊p⌋₊ + (p - (⌊p⌋₊ : ℝ)) * T (⌊p⌋₊ + 1) := by
      nlinarith [mul_nonneg (by linarith : (0:ℝ) ≤ 1 - (p - (⌊p⌋₊ : ℝ)))
        (sub_nonneg.2 (hT ⌊p⌋₊))]
    have h2 : (1 - (q - (⌊q⌋₊ : ℝ))) * T ⌊q⌋₊ + (q - (⌊q⌋₊ : ℝ)) * T (⌊q⌋₊ + 1)
        ≤ T ⌊q⌋₊ := by
      nlinarith [mul_nonneg (sub_nonneg.2 hfq) (sub_nonneg.2 (hT ⌊q⌋₊))]
    have h3 : T ⌊q⌋₊ ≤ T (⌊p⌋₊ + 1) := hanti (Nat.succ_le_of_lt hlt)
    linarith

theorem DP2Cost.lookup_eq_interp (R : ℕ) (t0 : ℝ) (dp : ℝ) :
    DP2Cost.lookup R t0 dp
      = (1 - (dp * (R : ℝ) - (⌊dp * (R : ℝ)⌋₊ : ℝ)))
          * DP2Cost.entry R t0 ⌊dp * (R : ℝ)⌋₊
        + (dp * (R : ℝ) - (⌊dp * (R : ℝ)⌋₊ : ℝ))
          * DP2Cost.entry R t0 (⌊dp * (R : ℝ)⌋₊ + 1) := by
  simp only [DP2Cost.lookup, DP2Cost.data_getD]

/-- C5: for every lookup-table instance (resolution at least 1, with
the stored bin-0 value at least as large as the bin-1 value, as holds
for the program's large finite bin-0 value), the cost returned for
`dp = 1.0` is exactly 0, the returned cost is monotonically
non-increasing as `dp` increases over `[0,1]`, and the cost returned
for `dp = 0.0` is exactly the table's stored finite approximation of
`tan(acos 0)`. -/
theorem DP2Cost.lookup_props (R : ℕ) (t0 : ℝ) (hR : 1 ≤ R)
    (ht0 : tanacos (1 / (R : ℝ)) ≤ t0) :
    DP2Cost.lookup R t0 1 = 0
    ∧ (∀ dp1 dp2 : ℝ, 0 ≤ dp1 → dp1 ≤ dp2 → dp2 ≤ 1 →
        DP2Cost.lookup R t0 dp2 ≤ DP2Cost.lookup R t0 dp1)
    ∧ DP2Cost.lookup R t0 0 = t0 := by
  have hRpos : (0 : ℝ) < (R : ℝ) := by exact_mod_cast lt_of_lt_of_le one_pos hR
  refine ⟨?_, ?_, ?_⟩
  · rw [DP2Cost.lookup_eq_interp, one_mul, Nat.floor_natCast,
      DP2Cost.entry_of_le R t0 hR le_rfl, DP2Cost.entry_of_gt R t0 (Nat.lt_succ_self R),
      div_self (ne_of_gt hRpos), tanacos_one]
    ring
  · intro dp1 dp2 h0 h12 _
    rw [DP2Cost.lookup_eq_interp, DP2Cost.lookup_eq_interp]
    exact interp_antitone (DP2Cost.entry R t0) (DP2Cost.entry_succ_le R t0 hR ht0)
      (mul_nonneg h0 hRpos.le) (mul_le_mul_of_nonneg_right h12 hRpos.le)
  · rw [DP2Cost.lookup_eq_interp]
    simp [DP2Cost.entry_zero]

/-- Witness for C5: a resolution-1 table with bin-0 value 0 satisfies
the hypotheses, and the theorem evaluates the lookup at `dp = 1`. -/
theorem DP2Cost.lookup_props_witness :
    tanacos (1 / ((1 : ℕ) : ℝ)) ≤ 0 ∧ DP2Cost.lookup 1 0 1 = 0 := by
  have hyp : tanacos (1 / ((1 : ℕ) : ℝ)) ≤ 0 := by
    norm_num [tanacos, Real.sqrt_zero]
  exact ⟨hyp, (DP2Cost.lookup_props 1 0 le_rfl hyp).1⟩

/-- C6: a table constructed with resolution `R` has exactly `R + 2`
bins; bin `k` holds the angular cost `tan(acos(k/R))` for `k` in
`[1, R]` (bin 0 holding the stored finite approximation of
`tan(acos 0)`), the final padding bin holds 0, and for every query
`dp` in `[0,1]` the interpolation index `lower` satisfies
`lower <= R`, so positions `lower` and `lower + 1` never reach past
the table end. -/
theorem DP2Cost.table_layout (R : ℕ) (t0 : ℝ) :
    (DP2Cost.data R t0).length = R + 2
    ∧ (DP2Cost.data R t0).getD 0 0 = t0
    ∧ (∀ k, 1 ≤ k → k ≤ R →
        (DP2Cost.data R t0).getD k 0 = tanacos ((k : ℝ) / (R : ℝ)))
    ∧ (DP2Cost.data R t0).getD (R + 1) 0 = 0
    ∧ ∀ dp : ℝ, 0 ≤ dp → dp ≤ 1 →
        ⌊dp * (R : ℝ)⌋₊ ≤ R ∧ ⌊dp * (R : ℝ)⌋₊ + 1 < (DP2Cost.data R t0).length := by
  refine ⟨by simp [DP2Cost.data], ?_, ?_, ?_, ?_⟩
  · rw [DP2Cost.data_getD, DP2Cost.entry_zero]
  · intro k h1 h2
    rw [DP2Cost.data_getD, DP2Cost.entry_of_le R t0 h1 h2]
  · rw [DP2Cost.data_getD, DP2Cost.entry_of_gt R t0 (Nat.lt_succ_self R)]
  · intro dp h0 h1
    have hle : dp * (R : ℝ) ≤ (R : ℝ) := by
      calc dp * (R : ℝ) ≤ 1 * (R : ℝ) :=
            mul_le_mul_of_nonneg_right h1 (Nat.cast_nonneg R)
        _ = (R : ℝ) := one_mul _
    have hfloor : ⌊dp * (R : ℝ)⌋₊ ≤ R := by
      calc ⌊dp * (R : ℝ)⌋₊ ≤ ⌊((R : ℕ) : ℝ)⌋₊ := Nat.floor_le_floor hle
        _ = R := Nat.floor_natCast R
    refine ⟨hfloor, ?_⟩
    simp only [DP2Cost.data, List.length_map, List.length_range]
    omega

/-- Witness for C6 at resolution 2, bin-0 value 5, query 1/2. -/
theorem DP2Cost.table_layout_witness :
    (DP2Cost.data 2 5).length = 2 + 2
    ∧ (DP2Cost.data 2 5).getD 0 0 = 5
    ∧ (0 : ℝ) ≤ 1 / 2 ∧ (1 / 2 : ℝ) ≤ 1
    ∧ ⌊(1 / 2 : ℝ) * ((2 : ℕ) : ℝ)⌋₊ ≤ 2 := by
  have h := DP2Cost.table_layout 2 5
  exact ⟨h.1, h.2.1, by norm_num, by norm_num,
    (h.2.2.2.2 (1 / 2) (by norm_num) (by norm_num)).1⟩

/-! ### Projector lemmas -/

theorem one_le_objectives (corr : Mapping) {j t : ℕ}
    (h : j ∈ corr.getD t []) :
    1 ≤ objectives_per_source_fixel corr j := by
  induction corr generalizing t with
  | nil => simp at h
  | cons l rest ih =>
      rcases t with _ | s
      · rw [List.getD_cons_zero] at h
        have := List.count_pos_iff.2 h
        simp only [objectives_per_source_fixel, List.map_cons, List.sum_cons]
        omega
      · rw [List.getD_cons_succ] at h
        have := ih h
        simp only [objectives_per_source_fixel, List.map_cons, List.sum_cons] at *
        omega

theorem two_le_objectives (corr : Mapping) {j t1 t2 : ℕ} (hne : t1 ≠ t2)
    (h1 : j ∈ corr.getD t1 []) (h2 : j ∈ corr.getD t2 []) :
    2 ≤ objectives_per_source_fixel corr j := by
  induction corr generalizing t1 t2 with
  | nil => simp at h1
  | cons l rest ih =>
      rcases t1 with _ | s1 <;> rcases t2 with _ | s2
      · exact absurd rfl hne
      · rw [List.getD_cons_zero] at h1
        rw [List.getD_cons_succ] at h2
        have ha := List.count_pos_iff.2 h1
        have hb := one_le_objectives rest h2
        simp only [objectives_per_source_fixel, List.map_cons, List.sum_cons] at *
        omega
      · rw [List.getD_cons_succ] at h1
        rw [List.getD_cons_zero] at h2
        have ha := List.count_pos_iff.2 h2
        have hb := one_le_objectives rest h1
        simp only [objectives_per_source_fixel, List.map_cons, List.sum_cons] at *
        omega
      · rw [List.getD_cons_succ] at h1 h2
        have := ih (by omega : s1 ≠ s2) h1 h2
        simp only [objectives_per_source_fixel, List.map_cons, List.sum_cons] at *
        omega

theorem implicit_weight_lt_one (corr : Mapping) {j : ℕ}
    (h : 2 ≤ objectives_per_source_fixel corr j) :
    implicit_weight corr j < 1 := by
  rw [implicit_weight, if_pos (by omega)]
  rw [div_lt_one (by exact_mod_cast lt_of_lt_of_le two_pos h)]
  exact_mod_cast lt_of_lt_of_le one_lt_two h

theorem implicit_weight_pos_eq (corr : Mapping) {j : ℕ}
    (h : objectives_per_source_fixel corr j ≠ 0) :
    implicit_weight corr j = 1 / (objectives_per_source_fixel corr j : ℝ) := by
  rw [implicit_weight, if_pos h]

theorem objectives_eq_fanout (corr : Mapping)
    (hnd : ∀ l ∈ corr, l.Nodup) (j : ℕ) :
    objectives_per_source_fixel corr j = fanout corr j := by
  induction corr with
  | nil => rfl
  | cons l rest ih =>
      have hl : l.Nodup := hnd l (by simp)
      have hrest : ∀ x ∈ rest, x.Nodup := fun x hx => hnd x (by simp [hx])
      by_cases hj : j ∈ l
      · rw [fanout, List.filter_cons_of_pos (by simpa using hj)]
        simp only [objectives_per_source_fixel, List.map_cons, List.sum_cons,
          List.length_cons]
        rw [List.count_eq_one_of_mem hl hj]
        have := ih hrest
        rw [objectives_per_source_fixel] at this
        rw [this, fanout]
        omega
      · rw [fanout, List.filter_cons_of_neg (by simpa using hj)]
        simp only [objectives_per_source_fixel, List.map_cons, List.sum_cons]
        rw [List.count_eq_zero_of_not_mem hj]
        have := ih hrest
        rw [objectives_per_source_fixel] at this
        rw [this, fanout]
        omega

theorem Projector.output_nan_of_shared (P : Projector) {out_index j : ℕ}
    (hone : P.fill.nan_one2many = true)
    (hj : j ∈ P.correspondence.getD out_index [])
    (hw : implicit_weight P.correspondence j < 1) :
    P.output out_index = .nan := by
  have hne : P.correspondence.getD out_index [] ≠ [] := List.ne_nil_of_mem hj
  simp only [Projector.output]
  rw [if_neg (by simpa [List.length_eq_zero] using hne)]
  by_cases h2 : 1 < (P.correspondence.getD out_index []).length
      ∧ P.fill.nan_many2one = true
  · rw [if_pos h2]
  · rw [if_neg h2, if_pos ⟨hone, j, hj, hw⟩]

/-- C2: an output target fixel whose assignment list in the
correspondence mapping is empty receives exactly the configured fill
value, for every metric and regardless of the `nan_many2one` and
`nan_one2many` policy flags (the projector is quantified over all its
configuration). -/
theorem Projector.output_empty (P : Projector) (out_index : ℕ)
    (h : P.correspondence.getD out_index [] = []) :
    P.output out_index = .val P.fill.value := by
  simp only [Projector.output]
  rw [h]
  simp

/-- Witness for C2: a one-target mapping with an empty assignment list,
`nan` policies enabled and metric `angle`, still produces the fill
value 7. -/
theorem Projector.output_empty_witness :
    ({ correspondence := [[]],
       metric := .ANGLE,
       fill := { value := 7, nan_many2one := true, nan_one2many := true },
       input_data := fun _ => 0,
       explicit_weights := none,
       input_directions := fun _ => (1, 0, 0),
       target_directions := fun _ => (1, 0, 0) } : Projector).output 0
      = .val 7 :=
  Projector.output_empty _ 0 rfl

/-- C3: with `nan_many2one` active, a target with more than one
assigned source fixel receives the sentinel and no aggregate; with
`nan_one2many` active, whenever a source fixel `j` appears in the
assignment lists of two distinct targets, every target whose list holds
`j` receives the sentinel. -/
theorem Projector.output_ambiguity_nan (P : Projector) :
    (P.fill.nan_many2one = true →
      ∀ out_index, 1 < (P.correspondence.getD out_index []).length →
        P.output out_index = .nan)
    ∧ (P.fill.nan_one2many = true →
      ∀ j t1 t2, t1 ≠ t2 →
        j ∈ P.correspondence.getD t1 [] → j ∈ P.correspondence.getD t2 [] →
        ∀ t, j ∈ P.correspondence.getD t [] → P.output t = .nan) := by
  constructor
  · intro hm out_index hlen
    simp only [Projector.output]
    rw [if_neg (by omega), if_pos ⟨hlen, hm⟩]
  · intro ho j t1 t2 hne h1 h2 t ht
    exact Projector.output_nan_of_shared P ho ht
      (implicit_weight_lt_one _ (two_le_objectives _ hne h1 h2))

/-- Witness for C3: source fixel 0 feeds both targets of the mapping
[[0, 1], [0]]; with both policies active target 0 (two origins) and
target 1 (shared origin) both receive the sentinel. -/
theorem Projector.output_ambiguity_nan_witness :
    ({ correspondence := [[0, 1], [0]],
       metric := .SUM,
       fill := { value := 0, nan_many2one := true, nan_one2many := true },
       input_data := fun _ => 1,
       explicit_weights := none,
       input_directions := fun _ => (1, 0, 0),
       target_directions := fun _ => (1, 0, 0) } : Projector).output 0 = .nan
    ∧ ({ correspondence := [[0, 1], [0]],
         metric := .SUM,
         fill := { value := 0, nan_many2one := true, nan_one2many := true },
         input_data := fun _ => 1,
         explicit_weights := none,
         input_directions := fun _ => (1, 0, 0),
         target_directions := fun _ => (1, 0, 0) } : Projector).output 1 = .nan := by
  constructor
  · exact (Projector.output_ambiguity_nan _).1 rfl 0 (by decide)
  · exact (Projector.output_ambiguity_nan _).2 rfl 0 0 1 (by decide)
      (by decide) (by decide) 1 (by decide)

/-- C4: when the target's assignment list is non-empty and neither
ambiguity sentinel fires, and an explicit-weights image `w` is
supplied, each source fixel's value enters the accumulation as
`value * (1 / fan-out) * explicit weight`, where the fan-out is the
number of distinct targets that source fixel feeds (the correspondence
lists are duplicate-free, as produced by the matching algorithms, so
the constructor's occurrence tally equals the fan-out): the `sum`
metric returns the sum of these contributions and the `mean` metric
divides it by the sum of the per-fixel weights. -/
theorem Projector.output_weighted (P : Projector) (w : ℕ → ℝ)
    (hex : P.explicit_weights = some w)
    (hnd : ∀ l ∈ P.correspondence, l.Nodup)
    (out_index : ℕ)
    (hne : P.correspondence.getD out_index [] ≠ [])
    (hm : ¬ (1 < (P.correspondence.getD out_index []).length
        ∧ P.fill.nan_many2one = true))
    (ho : ¬ (P.fill.nan_one2many = true
        ∧ ∃ i ∈ P.correspondence.getD out_index [],
            implicit_weight P.correspondence i < 1)) :
    (P.metric = .SUM → P.output out_index
        = .val ((P.correspondence.getD out_index []).map
            (fun i => P.input_data i
              * ((1 / (fanout P.correspondence i : ℝ)) * w i))).sum)
    ∧ (P.metric = .MEAN → P.output out_index
        = .val (((P.correspondence.getD out_index []).map
            (fun i => P.input_data i
              * ((1 / (fanout P.correspondence i : ℝ)) * w i))).sum
          / ((P.correspondence.getD out_index []).map
            (fun i => (1 / (fanout P.correspondence i : ℝ)) * w i)).sum)) := by
  have hlen : ¬ ((P.correspondence.getD out_index []).length = 0) := by
    simpa [List.length_eq_zero] using hne
  have hw : ∀ i ∈ P.correspondence.getD out_index [],
      P.weight i = (1 / (fanout P.correspondence i : ℝ)) * w i := by
    intro i hi
    have hobj : objectives_per_source_fixel P.correspondence i ≠ 0 := by
      have := one_le_objectives P.correspondence hi
      omega
    rw [Projector.weight, hex, implicit_weight_pos_eq _ hobj,
      objectives_eq_fanout _ hnd]
  have hmap1 : (P.correspondence.getD out_index []).map
        (fun i => P.input_data i * P.weight i)
      = (P.correspondence.getD out_index []).map
        (fun i => P.input_data i
          * ((1 / (fanout P.correspondence i : ℝ)) * w i)) :=
    List.map_congr_left (fun i hi => by rw [hw i hi])
  have hmap2 : (P.correspondence.getD out_index []).map P.weight
      = (P.correspondence.getD out_index []).map
        (fun i => (1 / (fanout P.correspondence i : ℝ)) * w i) :=
    List.map_congr_left hw
  constructor
  · intro hmetric
    simp only [Projector.output]
    rw [if_neg hlen, if_neg hm, if_neg ho, hmetric, hmap1]
  · intro hmetric
    simp only [Projector.output]
    rw [if_neg hlen, if_neg hm, if_neg ho, hmetric, hmap1, hmap2]

/-- Witness for C4: one target assigned the single source fixel 0 with
value 2 and explicit weight 5; its fan-out is 1, so the sum metric
yields 2 * (1/1) * 5 = 10. -/
theorem Projector.output_weighted_witness :
    ({ correspondence := [[0]],
       metric := .SUM,
       fill := { value := 0, nan_many2one := false, nan_one2many := false },
       input_data := fun _ => 2,
       explicit_weights := some (fun _ => 5),
       input_directions := fun _ => (1, 0, 0),
       target_directions := fun _ => (1, 0, 0) } : Projector).output 0
      = .val 10 := by
  have h := (Projector.output_weighted
    { correspondence := [[0]],
      metric := .SUM,
      fill := { value := 0, nan_many2one := false, nan_one2many := false },
      input_data := fun _ => 2,
      explicit_weights := some (fun _ => 5),
      input_directions := fun _ => (1, 0, 0),
      target_directions := fun _ => (1, 0, 0) }
    (fun _ => 5) rfl (by decide) 0 (by decide) (by decide)
    (by rintro ⟨hb, -⟩; exact absurd hb (by decide))).1 rfl
  rw [h]
  norm_num [fanout]

/-- C8: for the two-fixel example (values 2.0 and 4.0, each source
feeding only the one target, no explicit weights, so every weight is
1), metric `mean` yields 3.0, metric `sum` yields 6.0 and metric
`count` yields 2. -/
theorem two_fixel_projector_output :
    (two_fixel_projector .MEAN).output 0 = .val 3
    ∧ (two_fixel_projector .SUM).output 0 = .val 6
    ∧ (two_fixel_projector .COUNT).output 0 = .val 2 := by
  have h0 : implicit_weight [[0, 1]] 0 = 1 := by
    have ho : objectives_per_source_fixel [[0, 1]] 0 = 1 := by decide
    rw [implicit_weight, if_pos (by omega), ho]
    norm_num
  have h1 : implicit_weight [[0, 1]] 1 = 1 := by
    have ho : objectives_per_source_fixel [[0, 1]] 1 = 1 := by decide
    rw [implicit_weight, if_pos (by omega), ho]
    norm_num
  refine ⟨?_, ?_, ?_⟩ <;>
    norm_num [two_fixel_projector, Projector.output, Projector.weight, h0, h1]

/-- C9: when more than one threshold-selection mechanism is requested
(two or more of -abs, -percentile, -top, -bottom), run() throws the
descriptive exception before any other step: the input image is never
opened, no thresholding work happens, and no output is written. -/
theorem mrthreshold_run_multiple_mechanisms (o : ThresholdOptions)
    (h : 1 < num_explicit_mechanisms o) :
    mrthreshold_run o
      = ([], some "Cannot specify more than one mechanism for threshold selection")
    ∧ ThresholdStep.openInput ∉ (mrthreshold_run o).1
    ∧ ThresholdStep.computeThreshold ∉ (mrthreshold_run o).1
    ∧ ThresholdStep.writeOutput ∉ (mrthreshold_run o).1 := by
  have he : mrthreshold_run o
      = ([], some "Cannot specify more than one mechanism for threshold selection") := by
    rw [mrthreshold_run, if_pos h]
  exact ⟨he, by rw [he]; simp, by rw [he]; simp, by rw [he]; simp⟩

/-- Witness for C9: requesting both -abs and -percentile counts two
mechanisms and yields the terminating error with no steps executed. -/
theorem mrthreshold_run_multiple_mechanisms_witness :
    1 < num_explicit_mechanisms
        { abs_given := true, percentile_given := true, bottom_given := false,
          top_given := false, input_complex := false, to_cout := false }
    ∧ mrthreshold_run
        { abs_given := true, percentile_given := true, bottom_given := false,
          top_given := false, input_complex := false, to_cout := false }
      = ([], some "Cannot specify more than one mechanism for threshold selection") := by
  refine ⟨by decide, ?_⟩
  exact (mrthreshold_run_multiple_mechanisms _ (by decide)).1
